import Mathlib

/-!
Verification development for the rust-editorconfig library (src/lib.rs).

The Rust code is shallowly embedded:
* `OrderMap<String, String>` becomes an ordered association list `KV`
  (insert keeps the position of an existing key, appends a new one).
* The external INI parser (`mod ini`, not part of src/) is modelled from the
  spec as ordered sections with ordered key/value pairs.
* The `regex` crate is modelled by a small backtracking engine with
  leftmost-first (Perl-style) match semantics, priority-ordered so that
  greedy/lazy preferences and capture groups behave as in the `regex` crate.
* Rust panics (`unwrap` on a failing `Regex::new`, absent capture groups)
  are modelled as `none` / `.panic`; `Result::Err` as `.err`.
* The filesystem is an explicit association of paths (component lists) to
  parse outcomes; canonical paths are assumed (no symlinks or `..`).
-/

namespace Editorconfig

/-- Ordered key/value map, mirroring `ordermap::OrderMap<String, String>`. -/
abbrev KV := List (String × String)

/-- `OrderMap::get`. -/
def kvGet : KV → String → Option String
  | [], _ => none
  | (k0, v0) :: rest, k => if k0 = k then some v0 else kvGet rest k

/-- `OrderMap::insert`: replace the value in place if the key exists
(keeping its position), otherwise append at the end. -/
def kvInsert : KV → String × String → KV
  | [], p => [p]
  | (k0, v0) :: rest, p =>
    if k0 = p.1 then (k0, p.2) :: rest else (k0, v0) :: kvInsert rest p

/-- `OrderMap::contains_key`. -/
def kvContains (m : KV) (k : String) : Bool := (kvGet m k).isSome

/-- The keys of the map, in iteration order. -/
def keysOf (m : KV) : List String := m.map Prod.fst

/-- Keys are pairwise distinct (an invariant of every `OrderMap`). -/
def kvWellFormed : KV → Bool
  | [] => true
  | (k, _) :: rest => !kvContains rest k && kvWellFormed rest

/-- ASCII lowercase, mirroring `str::to_lowercase` on the ASCII data
that editorconfig keys/values consist of. -/
def lower (s : String) : String := String.mk (s.data.map Char.toLower)

/-- UTF-8 byte length, mirroring Rust `str::len`. -/
def byteLen (s : String) : Nat := s.data.foldl (fun n c => n + c.utf8Size) 0

/-- `str::contains(char)`. -/
def hasChar (s : String) (c : Char) : Bool := s.data.contains c

/-- One step of `str::replace`: scan left to right, replace each
non-overlapping occurrence, continue scanning the source after it. -/
def replaceGo (pat rep : List Char) : Nat → List Char → List Char
  | 0, s => s
  | _ + 1, [] => []
  | fuel + 1, c :: rest =>
    if pat.isPrefixOf (c :: rest) then
      rep ++ replaceGo pat rep fuel ((c :: rest).drop pat.length)
    else
      c :: replaceGo pat rep fuel rest

/-- Rust `str::replace` (all non-overlapping occurrences, left to right). -/
def strReplace (s pat rep : String) : String :=
  String.mk (replaceGo pat.data rep.data (s.data.length + 1) s.data)

/-- Whether `sub` occurs as a contiguous substring (`str::contains`). -/
def hasSub (sub : List Char) : List Char → Bool
  | [] => sub.isPrefixOf ([] : List Char)
  | c :: rest => sub.isPrefixOf (c :: rest) || hasSub sub rest

/-- Rust `str::split(sub)` on a non-empty literal separator. -/
def splitSub (sub : List Char) : Nat → List Char → List Char → List (List Char)
  | 0, cur, s => [cur.reverse ++ s]
  | fuel + 1, cur, s =>
    if sub.isPrefixOf s then
      cur.reverse :: splitSub sub fuel [] (s.drop sub.length)
    else
      match s with
      | [] => [cur.reverse]
      | c :: r => splitSub sub fuel (c :: cur) r

def strSplit (s sub : String) : List String :=
  (splitSub sub.data (s.data.length + 1) [] s.data).map String.mk

/-! ## A small regex engine (the `regex` crate, leftmost-first semantics) -/

/-- Abstract syntax of the regex dialect the translation pipeline produces. -/
inductive RE where
  | eps
  | lit (c : Char)
  | dot
  | cls (neg : Bool) (ranges : List (Char × Char))
  | bol
  | eol
  | seq (r1 r2 : RE)
  | alt (r1 r2 : RE)
  | star (lazy : Bool) (r : RE)
  | opt (lazy : Bool) (r : RE)
  | group (idx : Option Nat) (r : RE)
deriving DecidableEq, Repr

/-- Captured group contents (group index, captured characters);
the most recent capture of a group is listed first. -/
abbrev Caps := List (Nat × List Char)

def capGet : Caps → Nat → Option (List Char)
  | [], _ => none
  | (j, v) :: rest, i => if j = i then some v else capGet rest i

def capGetD (caps : Caps) (i : Nat) : List Char := (capGet caps i).getD []

def inRanges (c : Char) : List (Char × Char) → Bool
  | [] => false
  | (a, b) :: rest =>
    (Nat.ble a.toNat c.toNat && Nat.ble c.toNat b.toNat) || inRanges c rest

def reSize : RE → Nat
  | .eps | .lit _ | .dot | .cls _ _ | .bol | .eol => 1
  | .seq a b | .alt a b => reSize a + reSize b + 1
  | .star _ r | .opt _ r | .group _ r => reSize r + 1

/-- All ways the expression can match starting at `pos`, as
`(end position, captures)` pairs in backtracking priority order: the head is
the alternative a Perl-style engine (and the `regex` crate) prefers. -/
def mrun (s : List Char) : Nat → RE → Nat → Caps → List (Nat × Caps)
  | 0, _, _, _ => []
  | _ + 1, .eps, pos, caps => [(pos, caps)]
  | _ + 1, .lit c, pos, caps =>
    match s[pos]? with
    | some c2 => if c2 = c then [(pos + 1, caps)] else []
    | none => []
  | _ + 1, .dot, pos, caps =>
    match s[pos]? with
    | some c2 => if c2 = '\n' then [] else [(pos + 1, caps)]
    | none => []
  | _ + 1, .cls neg ranges, pos, caps =>
    match s[pos]? with
    | some c2 => if inRanges c2 ranges != neg then [(pos + 1, caps)] else []
    | none => []
  | _ + 1, .bol, pos, caps => if pos = 0 then [(pos, caps)] else []
  | _ + 1, .eol, pos, caps => if pos = s.length then [(pos, caps)] else []
  | fuel + 1, .seq r1 r2, pos, caps =>
    (mrun s fuel r1 pos caps).flatMap (fun pc => mrun s fuel r2 pc.1 pc.2)
  | fuel + 1, .alt r1 r2, pos, caps =>
    mrun s fuel r1 pos caps ++ mrun s fuel r2 pos caps
  | fuel + 1, .opt lz r, pos, caps =>
    if lz then (pos, caps) :: mrun s fuel r pos caps
    else mrun s fuel r pos caps ++ [(pos, caps)]
  | fuel + 1, .star lz r, pos, caps =>
    let step := (mrun s fuel r pos caps).flatMap
      (fun pc => if pc.1 = pos then [] else mrun s fuel (.star lz r) pc.1 pc.2)
    if lz then (pos, caps) :: step else step ++ [(pos, caps)]
  | fuel + 1, .group idx r, pos, caps =>
    (mrun s fuel r pos caps).map
      (fun pc =>
        match idx with
        | some i => (pc.1, (i, (s.drop pos).take (pc.1 - pos)) :: pc.2)
        | none => pc)

/-- Enough fuel for `mrun`: every star iteration consumes at least one
character, so recursion depth is bounded by `|s| * |re|` up to constants. -/
def mrunFuel (s : List Char) (re : RE) : Nat := (s.length + 2) * (reSize re + 2)

/-- Leftmost match at or after `pos`: `(start, end, captures)` of the
leftmost-first match, as the `regex` crate would report it. -/
def scanFirst (re : RE) (s : List Char) : Nat → Nat → Option (Nat × Nat × Caps)
  | 0, _ => none
  | fuel + 1, pos =>
    match mrun s (mrunFuel s re) re pos [] with
    | pc :: _ => some (pos, pc.1, pc.2)
    | [] => if pos < s.length then scanFirst re s fuel (pos + 1) else none

/-- `Regex::is_match`. -/
def reIsMatch (re : RE) (s : List Char) : Bool :=
  (scanFirst re s (s.length + 1) 0).isSome

/-- Worker for `Regex::replace_all` keeping absolute positions (so that
anchors keep their meaning while scanning). -/
def replaceAllFrom (re : RE) (f : Caps → List Char) (s : List Char) :
    Nat → Nat → List Char
  | 0, pos => s.drop pos
  | fuel + 1, pos =>
    match scanFirst re s (s.length + 1 - pos) pos with
    | none => s.drop pos
    | some (st, en, caps) =>
      ((s.drop pos).take (st - pos)) ++ f caps ++
        (if st < en then replaceAllFrom re f s fuel en
         else
           match s[en]? with
           | some c => c :: replaceAllFrom re f s fuel (en + 1)
           | none => [])

/-- `Regex::replace_all` with a replacement function of the captures. -/
def reReplaceAll (re : RE) (f : Caps → List Char) (s : List Char) : List Char :=
  replaceAllFrom re f s (s.length + 2) 0

/-- `Regex::replace` (first match only). -/
def reReplaceFirst (re : RE) (f : Caps → List Char) (s : List Char) : List Char :=
  match scanFirst re s (s.length + 1) 0 with
  | none => s
  | some (st, en, caps) => s.take st ++ f caps ++ s.drop en

/-- Worker for `Regex::captures_iter`. -/
def capturesFrom (re : RE) (s : List Char) : Nat → Nat → List Caps
  | 0, _ => []
  | fuel + 1, pos =>
    match scanFirst re s (s.length + 1 - pos) pos with
    | none => []
    | some (st, en, caps) =>
      caps ::
        (if st < en then capturesFrom re s fuel en
         else if en < s.length then capturesFrom re s fuel (en + 1) else [])

/-- `Regex::captures_iter`: the captures of every non-overlapping match. -/
def reCaptures (re : RE) (s : List Char) : List Caps :=
  capturesFrom re s (s.length + 2) 0

/-! ## Parsing a regex string (`Regex::new`); `none` models a construction error -/

/-- Items of a character class, up to the closing bracket. -/
def clsItems : Nat → List Char → Option (List (Char × Char) × List Char)
  | 0, _ => none
  | _ + 1, [] => none
  | _ + 1, ']' :: rest => some ([], rest)
  | fuel + 1, '\\' :: c :: rest =>
    (clsItems fuel rest).map (fun ir => ((c, c) :: ir.1, ir.2))
  | _ + 1, '\\' :: [] => none
  | fuel + 1, c :: '-' :: c2 :: rest =>
    if c2 = ']' then some ([(c, c), ('-', '-')], rest)
    else (clsItems fuel rest).map (fun ir => ((c, c2) :: ir.1, ir.2))
  | fuel + 1, c :: rest =>
    (clsItems fuel rest).map (fun ir => ((c, c) :: ir.1, ir.2))

/-- The recursive-descent level being parsed: alternation, concatenation,
a quantified atom, or a bare atom. -/
inductive PMode where
  | palt
  | pseq
  | ppost
  | patom

/-- Recursive-descent parser for the regex dialect, one function over fuel
so that it reduces definitionally. The `Nat` state numbers capture groups by
order of their opening parenthesis, as the `regex` crate does. -/
def pRun : Nat → PMode → List Char → Nat → Option (RE × List Char × Nat)
  | 0, _, _, _ => none
  | fuel + 1, .palt, input, g =>
    match pRun fuel .pseq input g with
    | none => none
    | some (r1, rest, g1) =>
      match rest with
      | '|' :: rest2 =>
        match pRun fuel .palt rest2 g1 with
        | none => none
        | some (r2, rest3, g2) => some (.alt r1 r2, rest3, g2)
      | _ => some (r1, rest, g1)
  | fuel + 1, .pseq, input, g =>
    match pRun fuel .ppost input g with
    | none => some (.eps, input, g)
    | some (r1, rest, g1) =>
      match pRun fuel .pseq rest g1 with
      | none => none
      | some (r2, rest2, g2) => some (.seq r1 r2, rest2, g2)
  | fuel + 1, .ppost, input, g =>
    match pRun fuel .patom input g with
    | none => none
    | some (r, rest, g1) =>
      match rest with
      | '*' :: '?' :: rest2 => some (.star true r, rest2, g1)
      | '*' :: rest2 => some (.star false r, rest2, g1)
      | '+' :: '?' :: rest2 => some (.seq r (.star true r), rest2, g1)
      | '+' :: rest2 => some (.seq r (.star false r), rest2, g1)
      | '?' :: '?' :: rest2 => some (.opt true r, rest2, g1)
      | '?' :: rest2 => some (.opt false r, rest2, g1)
      | _ => some (r, rest, g1)
  | fuel + 1, .patom, input, g =>
    match input with
    | [] => none
    | '(' :: '?' :: ':' :: rest =>
      match pRun fuel .palt rest g with
      | some (r, ')' :: rest2, g1) => some (.group none r, rest2, g1)
      | _ => none
    | '(' :: rest =>
      match pRun fuel .palt rest (g + 1) with
      | some (r, ')' :: rest2, g1) => some (.group (some g) r, rest2, g1)
      | _ => none
    | '[' :: '^' :: rest =>
      match clsItems fuel rest with
      | some ([], _) => none
      | some (items, rest2) => some (.cls true items, rest2, g)
      | none => none
    | '[' :: rest =>
      match clsItems fuel rest with
      | some ([], _) => none
      | some (items, rest2) => some (.cls false items, rest2, g)
      | none => none
    | '.' :: rest => some (.dot, rest, g)
    | '^' :: rest => some (.bol, rest, g)
    | '$' :: rest => some (.eol, rest, g)
    | '\\' :: 'd' :: rest => some (.cls false [('0', '9')], rest, g)
    | '\\' :: c :: rest => some (.lit c, rest, g)
    | '\\' :: [] => none
    | ')' :: _ => none
    | '|' :: _ => none
    | '*' :: _ => none
    | '+' :: _ => none
    | '?' :: _ => none
    | '{' :: _ => none
    | c :: rest => some (.lit c, rest, g)

/-- `Regex::new` on the final translated pattern: `none` is a construction
error (which `glob_match` turns into a panic via `unwrap`). -/
def parseRegex (input : List Char) : Option RE :=
  match pRun (4 * input.length + 16) .palt input 1 with
  | some (r, [], _) => some r
  | _ => none

/-! ## The fixed regexes of lib.rs, as hand-built syntax trees -/

/-- regex `\\(\{|\})` — an escaped brace (has_imbalanced_braces). -/
def escapedBraceRE : RE :=
  .seq (.lit '\\') (.group (some 1) (.alt (.lit '{') (.lit '}')))

/-- regex `\[([^\]]*)$` — an unterminated bracket expression. -/
def unmatchedOpenBracketRE : RE :=
  .seq (.lit '[') (.seq (.group (some 1) (.star false (.cls true [(']', ']')]))) .eol)

/-- regex `\[(.*/.*)\]` — a bracket expression containing a slash. -/
def bracketedSlashRE : RE :=
  .seq (.lit '[')
    (.seq (.group (some 1) (.seq (.star false .dot) (.seq (.lit '/') (.star false .dot))))
      (.lit ']'))

/-- regex `\{(-?\d+\\\.\\\.-?\d+)\}` — a numeric range `{N\.\.M}` in the
already dot-escaped pattern. -/
def numericRangeRE : RE :=
  let digit : RE := .cls false [('0', '9')]
  let signedNum : RE := .seq (.opt false (.lit '-')) (.seq digit (.star false digit))
  let escDot : RE := .seq (.lit '\\') (.lit '.')
  .seq (.lit '{')
    (.seq (.group (some 1) (.seq signedNum (.seq escDot (.seq escDot signedNum))))
      (.lit '}'))

/-- regex `\{([^,]+)\}` — a brace group with no comma ("fake" alternation). -/
def fakeAlternationRE : RE :=
  let nonComma : RE := .cls true [(',', ',')]
  .seq (.lit '{') (.seq (.group (some 1) (.seq nonComma (.star false nonComma))) (.lit '}'))

/-- regex `\{(([^\}].*)?(,|\|)(.*[^\\])?)\}` — a brace alternation group. -/
def alternationRE : RE :=
  let g2 : RE := .group (some 2) (.seq (.cls true [('}', '}')]) (.star false .dot))
  let g3 : RE := .group (some 3) (.alt (.lit ',') (.lit '|'))
  let g4 : RE := .group (some 4) (.seq (.star false .dot) (.cls true [('\\', '\\')]))
  .seq (.lit '{')
    (.seq (.group (some 1) (.seq (.opt false g2) (.seq g3 (.opt false g4)))) (.lit '}'))

/-- regex `(^|[^\\])\\\|` — an escaped pipe not preceded by a backslash. -/
def escapedCommaRE : RE :=
  .seq (.group (some 1) (.alt .bol (.cls true [('\\', '\\')])))
    (.seq (.lit '\\') (.lit '|'))

/-- regex `^/` — a leading slash. -/
def leadingSlashRE : RE := .seq .bol (.lit '/')

/-- regex `(^|[^\\])(\{|\})` — an unescaped brace. -/
def unescapedBraceRE : RE :=
  .seq (.group (some 1) (.alt .bol (.cls true [('\\', '\\')])))
    (.group (some 2) (.alt (.lit '{') (.lit '}')))

/-! ## The glob translation (lib.rs lines 35-140) -/

/-- Depth counting of `has_imbalanced_braces` after escaped braces were
removed: returns true as soon as the depth goes negative, and at the end
when the depth is non-zero. -/
def depthCheck : List Char → Int → Bool
  | [], d => d != 0
  | c :: rest, d =>
    if c = '{' then depthCheck rest (d + 1)
    else if c = '}' then (if d - 1 < 0 then true else depthCheck rest (d - 1))
    else depthCheck rest d

/-- `has_imbalanced_braces` (lib.rs lines 35-50). -/
def has_imbalanced_braces (text : String) : Bool :=
  depthCheck (reReplaceAll escapedBraceRE (fun _ => []) text.data) 0

/-- `translate_alternation` (lib.rs lines 52-62), as a function of the
alternation regex's first capture group `caps[1]`. -/
def translate_alternation (cases1 : String) : String :=
  if has_imbalanced_braces cases1 then
    "\x7b" ++ strReplace (strReplace cases1 "\x7b" "\\\x7b") "\x7d" "\\\x7d" ++ "\x7d"
  else
    let quantifier := if hasSub [',', ','] ("," ++ cases1 ++ ",").data then "?" else ""
    let cases2 := strReplace cases1 "," "|"
    let cases3 :=
      String.mk (reReplaceFirst escapedCommaRE
        (fun caps => capGetD caps 1 ++ [',']) cases2.data)
    "(?:" ++ cases3 ++ ")" ++ quantifier

/-- The `while alternation_regex.is_match` loop (lib.rs lines 95-97); the
fuel bound is an artefact of totality, generous enough for every input the
claims touch (the Rust loop is not obviously terminating in general). -/
def altLoop : Nat → String → String
  | 0, p => p
  | fuel + 1, p =>
    if reIsMatch alternationRE p.data then
      altLoop fuel
        (String.mk (reReplaceAll alternationRE
          (fun caps => (translate_alternation (String.mk (capGetD caps 1))).data) p.data))
    else p

/-- The value of a digit run; `none` if empty or non-digit. -/
def digitsVal : List Char → Option Nat
  | [] => none
  | cs => go cs 0
where
  go : List Char → Nat → Option Nat
    | [], acc => some acc
    | c :: rest, acc =>
      if '0' ≤ c ∧ c ≤ '9' then go rest (acc * 10 + (c.toNat - '0'.toNat))
      else none

/-- `str::parse::<i32>` on an optionally `-`-signed digit string
(overflow is an `Err`, mirrored as `none`). -/
def parseI32 : List Char → Option Int
  | '-' :: rest =>
    (digitsVal rest).bind
      (fun n => if (n : Int) > 2147483648 then none else some (-(n : Int)))
  | cs =>
    (digitsVal cs).bind
      (fun n => if (n : Int) > 2147483647 then none else some (n : Int))

/-- The regex-building part of `glob_match` (lib.rs lines 64-116):
produces the compiled final regex and the numeric range specs (group-1
texts of `numeric_range_regex`, e.g. `1\.\.3`), or `none` when
`Regex::new(&pattern).unwrap()` would panic. -/
def globCompile (pattern : String) : Option (RE × List String) :=
  let origHadSlash := hasChar pattern '/'
  let p1 := strReplace pattern "." "\\."
  let p2 := String.mk (reReplaceAll unmatchedOpenBracketRE
    (fun caps => '\\' :: '[' :: capGetD caps 1) p1.data)
  let p3 := strReplace p2 "?" "."
  let p4 := String.mk (reReplaceAll bracketedSlashRE
    (fun caps => '\\' :: '[' :: (capGetD caps 1 ++ ['\\', ']'])) p3.data)
  let p5 := strReplace p4 "*" "[^/]*"
  let p6 := strReplace p5 "[^/]*[^/]*" ".*"
  let specs := (reCaptures numericRangeRE p6.data).map (fun caps => String.mk (capGetD caps 1))
  let p7 := String.mk (reReplaceAll numericRangeRE
    (fun _ => ('(' :: '0' :: '|' :: '-' :: '?' :: '[' :: '1' :: '-' :: '9' :: ']' ::
      '\\' :: 'd' :: '*' :: ')' :: [])) p6.data)
  let p8 := strReplace p7 "/.*/" "(?:/.*)?/"
  let p9 := strReplace p8 "[!" "[^"
  let p10 := String.mk (reReplaceAll fakeAlternationRE
    (fun caps => '\\' :: '\x7b' :: (capGetD caps 1 ++ ['\\', '\x7d'])) p9.data)
  let p11 := altLoop (p10.data.length + 8) p10
  let p12 := String.mk (reReplaceFirst leadingSlashRE (fun _ => ['^']) p11.data)
  let braceRepl : Caps → List Char := fun caps =>
    capGetD caps 1 ++ '\\' :: capGetD caps 2
  let p13 := String.mk (reReplaceAll unescapedBraceRE braceRepl p12.data)
  let p14 := String.mk (reReplaceAll unescapedBraceRE braceRepl p13.data)
  let p15 := strReplace p14 "||" "|"
  let p16 := strReplace p15 "(?:|" "(?:"
  let p17 := strReplace p16 "|)" ")"
  let leading := if origHadSlash then "" else "(?:.*?/)?"
  let finalPat := "^" ++ leading ++ p17 ++ "$"
  match parseRegex finalPat.data with
  | none => none
  | some re => some (re, specs)

/-- The numeric-range checking loop of `glob_match` (lib.rs lines 119-136),
over `caps.iter().zip(numeric_ranges.iter())`. `none` models the panic of
`num.get(1).unwrap()` on a non-participating group. -/
def rangesLoop : List (Caps × String) → Option Bool
  | [] => some true
  | (caps, spec) :: rest =>
    match capGet caps 1 with
    | none => none
    | some numStr =>
      match parseI32 numStr with
      | none => some false
      | some n =>
        let ends := strSplit spec "\\.\\."
        match (ends[0]?).map (fun e => parseI32 e.data) with
        | none => none
        | some none => some false
        | some (some mn) =>
          match (ends[1]?).map (fun e => parseI32 e.data) with
          | none => none
          | some none => some false
          | some (some mx) =>
            if mn > n ∨ n > mx then some false else rangesLoop rest

/-- `glob_match` (lib.rs lines 64-140). `none` models a panic. -/
def glob_match (pattern candidate : String) : Option Bool :=
  match globCompile pattern with
  | none => none
  | some (re, specs) =>
    if !specs.isEmpty && reIsMatch re candidate.data then
      rangesLoop ((reCaptures re candidate.data).zip specs)
    else some (reIsMatch re candidate.data)

/-! ## Filesystem and configuration-file model -/

/-- Modelled from the spec: the external INI-like parser (`mod ini` is not
under src/). It supplies an optional unscoped preamble (`section(None)`) and
the ordered named sections, each with ordered key/value pairs. -/
structure Ini where
  general : KV
  sections : List (String × KV)
deriving DecidableEq

/-- A filesystem: paths (absolute, as component lists, already canonical)
mapped to the outcome of reading them. An absent path does not exist;
`some none` exists but fails to parse; `some (some ini)` parses. -/
abbrev FS := List (List String × Option Ini)

def fsRead : FS → List String → Option (Option Ini)
  | [], _ => none
  | (q, d) :: rest, p => if q = p then some d else fsRead rest p

def fsExists (fs : FS) (p : List String) : Bool := (fsRead fs p).isSome

/-- Outcome of `parse_config` / `get_config_conffile`: Rust `Ok` is `.ok`,
Rust `Err` is `.err`, a Rust panic is `.panic`. -/
inductive PRes where
  | panic
  | err
  | ok (m : KV)
deriving DecidableEq, Repr

/-- `Path::strip_prefix`: the components of `target` after the ancestor
directory `context`, or `none` (an `Err` in Rust) if it is not an ancestor. -/
def relTo : List String → List String → Option (List String)
  | [], t => some t
  | c :: cr, t =>
    match t with
    | [] => none
    | t0 :: tr => if t0 = c then relTo cr tr else none

/-- Joining path components with `/` (the forward-slash-normalized relative
path handed to `glob_match`). -/
def joinSlash : List String → String
  | [] => ""
  | [x] => x
  | x :: rest => x ++ "/" ++ joinSlash rest

/-- `data.iter()` inserted into the layer: `OrderMap::insert` per pair. -/
def insertAll (m : KV) (data : KV) : KV := data.foldl kvInsert m

/-- The section loop of `parse_config` (lib.rs lines 157-168): every named
section whose pattern is at most 4096 bytes and matches contributes its
pairs; `none` propagates a `glob_match` panic. -/
def applySections (rel : String) : List (String × KV) → KV → Option KV
  | [], m => some m
  | (label, data) :: rest, m =>
    if byteLen label > 4096 then applySections rel rest m
    else
      match glob_match label rel with
      | none => none
      | some true => applySections rel rest (insertAll m data)
      | some false => applySections rel rest m

/-- The derived-key post-processing of `parse_config`
(lib.rs lines 170-189), exactly as the Rust code sequences it. -/
def postprocess (m : KV) : KV :=
  let m1 :=
    match kvGet m "indent_style" with
    | some is =>
      if is = "tab" then
        match kvGet m "indent_size" with
        | none => kvInsert m ("indent_size", "tab")
        | some _ => m
      else m
    | none => m
  match kvGet m1 "indent_size" with
  | some isz =>
    if isz ≠ "tab" then
      match kvGet m1 "tab_width" with
      | none => kvInsert m1 ("tab_width", isz)
      | some _ => m1
    else
      match kvGet m1 "tab_width" with
      | some tw => kvInsert m1 ("indent_size", tw)
      | none => m1
  | none => m1

/-- `parse_config` (lib.rs lines 142-191): the layer one configuration file
contributes for `target`. -/
def parse_config (fs : FS) (target : List String) (confFile : List String) : PRes :=
  match fsRead fs confFile with
  | none => .err
  | some none => .err
  | some (some ini) =>
    let m0 : KV :=
      match kvGet ini.general "root" with
      | some v => if lower v = "true" then [("root", "true")] else []
      | none => []
    match relTo confFile.dropLast target with
    | none => .err
    | some rel =>
      match applySections (joinSlash rel) ini.sections m0 with
      | none => .panic
      | some m1 => .ok (postprocess m1)

/-- The fixed list of known keys (lib.rs lines 193-202). -/
def is_known_key (k : String) : Bool :=
  (["indent_style", "indent_size", "tab_width", "end_of_line", "charset",
    "trim_trailing_whitespace", "insert_final_newline"] : List String).contains k

/-- The per-layer normalization loop of `get_config_conffile`
(lib.rs lines 249-262): lowercase the key, lowercase the value of known
keys, drop over-long pairs, keep the first occurrence of each key, and
never keep `root`. -/
def layerScan : KV → KV → KV
  | [], acc => acc
  | (k0, v0) :: rest, acc =>
    let k := lower k0
    let v := if is_known_key k then lower v0 else v0
    if byteLen k > 50 ∨ byteLen v > 255 then layerScan rest acc
    else if kvContains acc k ∨ k = "root" then layerScan rest acc
    else layerScan rest (acc ++ [(k, v)])

/-- The normalized contribution of one layer (the loop started on an empty
fresh `result`). -/
def layerPart (options : KV) : KV := layerScan options []

/-- One iteration of the merge (lib.rs lines 247-265): build the fresh map
from the current (farther) layer, then re-insert every accumulated (nearer)
entry, which overwrites values in place and appends new keys. -/
def mergeStep (old options : KV) : KV := old.foldl kvInsert (layerPart options)

/-- The cascade-termination test (lib.rs lines 266-270). -/
def isRootLayer (options : KV) : Bool :=
  match kvGet options "root" with
  | some v => lower v = "true"
  | none => false

/-- The candidate loop of `get_config_conffile` (lib.rs lines 245-271). -/
def cascade (fs : FS) (target : List String) : List (List String) → KV → PRes
  | [], acc => .ok acc
  | c :: rest, acc =>
    match parse_config fs target c with
    | .panic => .panic
    | .err => .err
    | .ok options =>
      let acc2 := mergeStep acc options
      if isRootLayer options then .ok acc2 else cascade fs target rest acc2

/-- The candidate locations (spec 4.3): for the target's own directory and
every ancestor up to the root, the sibling obtained by replacing the final
component with the configuration filename — nearest first, root last,
without any existence filtering. Worker over the reversed component list. -/
def sibAux (cf : String) : List String → List (List String)
  | [] => []
  | _ :: revRest => (revRest.reverse ++ [cf]) :: sibAux cf revRest

def allSiblings (path : List String) (cf : String) : List (List String) :=
  sibAux cf path.reverse

/-- Worker for `crawl_paths` over the reversed component list: the Rust
`while path.parent().is_some()` loop with its `if !adjacent_file.exists()
{ continue; }` filter. -/
def crawlAux (fs : FS) (cf : String) : List String → List (List String)
  | [] => []
  | _ :: revRest =>
    let adj := revRest.reverse ++ [cf]
    (if fsExists fs adj then [adj] else []) ++ crawlAux fs cf revRest

/-- `crawl_paths` (lib.rs lines 15-33); the target path is taken as already
canonical, so the `canonicalize` branch is the identity. -/
def crawl_paths (fs : FS) (path : List String) (cf : String) : List (List String) :=
  crawlAux fs cf path.reverse

/-- `get_config_conffile` (lib.rs lines 239-273). -/
def get_config_conffile (fs : FS) (path : List String) (cf : String) : PRes :=
  cascade fs path (crawl_paths fs path cf) []

/-- `get_config` (lib.rs lines 231-233). -/
def get_config (fs : FS) (path : List String) : PRes :=
  get_config_conffile fs path ".editorconfig"

/-- Outcome of collecting the consulted layers. -/
inductive CRes where
  | panic
  | err
  | ok (ls : List KV)
deriving DecidableEq, Repr

/-- The layers of the candidate files the cascade actually consults, in
nearest-to-farthest order: processing stops with (and includes) the first
layer whose `root` value is `"true"` case-insensitively. -/
def consultedLayers (fs : FS) (target : List String) : List (List String) → CRes
  | [] => .ok []
  | c :: rest =>
    match parse_config fs target c with
    | .panic => .panic
    | .err => .err
    | .ok options =>
      if isRootLayer options then .ok [options]
      else
        match consultedLayers fs target rest with
        | .panic => .panic
        | .err => .err
        | .ok ls => .ok (options :: ls)

/-- The value the cascade assigns to key `k`: the first consulted layer
(nearest first) whose normalized contribution sets `k`. -/
def firstVal (ls : List KV) (k : String) : Option String :=
  match ls with
  | [] => none
  | l :: rest =>
    match kvGet (layerPart l) k with
    | some v => some v
    | none => firstVal rest k

/-- Key order contributed by merging one more (farther) layer: its keys
first, in layer order, then the keys accumulated so far that it does not
set. -/
def stepKeys (ks : List String) (l : KV) : List String :=
  keysOf (layerPart l) ++ ks.filter (fun k => !kvContains (layerPart l) k)

/-! ## Concrete filesystems used to instantiate the theorems -/

/-- Spec 8's cascade example: the nearer file sets `indent_style=space`; the
farther file has `root=true` and sets `indent_style=tab`, `end_of_line=lf`;
a file beyond the root marker sets `charset=utf-8`. -/
def exFs1 : FS :=
  [ (["a", "b", ".ec"], some ⟨[], [("*", [("indent_style", "space")])]⟩),
    (["a", ".ec"],
      some ⟨[("root", "true")],
        [("*", [("indent_style", "tab"), ("end_of_line", "lf")])]⟩),
    ([".ec"], some ⟨[], [("*", [("charset", "utf-8")])]⟩) ]

/-- The nearer file sets only `aaa`, the farther file only `bbb`. -/
def exFs2 : FS :=
  [ (["d", ".ec"], some ⟨[], [("*", [("aaa", "1")])]⟩),
    ([".ec"], some ⟨[], [("*", [("bbb", "2")])]⟩) ]

/-- A file whose first section header is the malformed glob `(`. -/
def exFs5 : FS :=
  [ (["d", ".ec"], some ⟨[], [("(", [("x", "y")]), ("*", [("k2", "v2")])]⟩) ]

/-- Only the middle ancestor directory contains a configuration file. -/
def exFs6 : FS := [ (["a", ".ec"], some ⟨[], []⟩) ]

/-- The nearer file has `root=true`; the file at the filesystem root exists
but fails to parse. -/
def exFs7 : FS :=
  [ (["a", ".ec"], some ⟨[("root", "true")], []⟩),
    ([".ec"], none) ]

/-- The only (consulted) candidate file fails to parse. -/
def exFs7b : FS := [ (["a", ".ec"], none) ]

/-- A matching section (not the preamble) declares `root=true`. -/
def exFsA : FS :=
  [ (["a", ".ec"], some ⟨[], [("*", [("root", "true"), ("k1", "v1")])]⟩),
    ([".ec"], some ⟨[], [("*", [("k2", "v2")])]⟩) ]

/-- The preamble declares `root=true` but a matching section overrides it
with `root=false`, so the cascade continues. -/
def exFsB : FS :=
  [ (["a", ".ec"], some ⟨[("root", "true")], [("*", [("root", "false")])]⟩),
    ([".ec"], some ⟨[], [("*", [("k2", "v2")])]⟩) ]

/-- A matching section declares `root=TRUE` (value case-insensitive). -/
def exFsC : FS :=
  [ (["a", ".ec"], some ⟨[], [("*", [("root", "TRUE")])]⟩),
    ([".ec"], some ⟨[], [("*", [("k2", "v2")])]⟩) ]


/-! ## The three derivation rules as the spec words them (claim side) -/

/-- Spec 4.2 rule 1: if `indent_style == "tab"` and `indent_size` is absent,
set `indent_size = "tab"`. -/
def specRuleA (m : KV) : KV :=
  if kvGet m "indent_style" = some "tab" ∧ kvGet m "indent_size" = none then
    kvInsert m ("indent_size", "tab")
  else m

/-- Spec 4.2 rule 2: if `indent_size` is present and not `"tab"`, and
`tab_width` is absent, set `tab_width = indent_size`. -/
def specRuleB (m : KV) : KV :=
  match kvGet m "indent_size" with
  | some v =>
    if v ≠ "tab" ∧ kvGet m "tab_width" = none then kvInsert m ("tab_width", v) else m
  | none => m

/-- Spec 4.2 rule 3: if `indent_size == "tab"` and `tab_width` is present,
set `indent_size = tab_width`. -/
def specRuleC (m : KV) : KV :=
  if kvGet m "indent_size" = some "tab" then
    match kvGet m "tab_width" with
    | some w => kvInsert m ("indent_size", w)
    | none => m
  else m

/-! ## Lemmas about the ordered map -/

theorem kvGet_kvInsert (m : KV) (pk pv k : String) :
    kvGet (kvInsert m (pk, pv)) k = if k = pk then some pv else kvGet m k := by
  induction m with
  | nil =>
    by_cases h : pk = k
    · subst h; simp [kvInsert, kvGet]
    · simp [kvInsert, kvGet, h, Ne.symm h]
  | cons hd tl ih =>
    obtain ⟨k0, v0⟩ := hd
    by_cases h0 : k0 = pk
    · subst h0
      by_cases h1 : k0 = k
      · subst h1; simp [kvInsert, kvGet]
      · simp [kvInsert, kvGet, h1, Ne.symm h1]
    · by_cases h1 : k0 = k
      · subst h1
        simp [kvInsert, kvGet, h0, Ne.symm h0]
      · simp [kvInsert, kvGet, h0, h1, ih]

theorem kvContains_kvInsert (m : KV) (pk pv k : String) :
    kvContains (kvInsert m (pk, pv)) k = if k = pk then true else kvContains m k := by
  simp only [kvContains, kvGet_kvInsert]
  by_cases h : k = pk <;> simp [h]

theorem keysOf_kvInsert_of_contains (m : KV) (pk pv : String)
    (h : kvContains m pk = true) : keysOf (kvInsert m (pk, pv)) = keysOf m := by
  induction m with
  | nil => simp [kvContains, kvGet] at h
  | cons hd tl ih =>
    obtain ⟨k0, v0⟩ := hd
    by_cases h0 : k0 = pk
    · subst h0; simp [kvInsert, keysOf]
    · have h' : kvContains tl pk = true := by
        simpa [kvContains, kvGet, h0] using h
      simp only [kvInsert, if_neg h0]
      simp only [keysOf, List.map_cons] at ih ⊢
      rw [ih h']

theorem keysOf_kvInsert_of_not_contains (m : KV) (pk pv : String)
    (h : kvContains m pk = false) : keysOf (kvInsert m (pk, pv)) = keysOf m ++ [pk] := by
  induction m with
  | nil => simp [kvInsert, keysOf]
  | cons hd tl ih =>
    obtain ⟨k0, v0⟩ := hd
    by_cases h0 : k0 = pk
    · subst h0
      simp [kvContains, kvGet] at h
    · have h' : kvContains tl pk = false := by
        simpa [kvContains, kvGet, h0] using h
      simp only [kvInsert, if_neg h0]
      simp only [keysOf, List.map_cons] at ih ⊢
      rw [ih h']
      simp

theorem kvWellFormed_kvInsert (m : KV) (pk pv : String)
    (h : kvWellFormed m = true) : kvWellFormed (kvInsert m (pk, pv)) = true := by
  induction m with
  | nil => simp [kvInsert, kvWellFormed, kvContains, kvGet]
  | cons hd tl ih =>
    obtain ⟨k0, v0⟩ := hd
    simp only [kvWellFormed, Bool.and_eq_true, Bool.not_eq_true'] at h
    obtain ⟨h1, h2⟩ := h
    by_cases h0 : k0 = pk
    · subst h0
      simp [kvInsert, kvWellFormed, h1, h2]
    · simp only [kvInsert, if_neg h0, kvWellFormed, Bool.and_eq_true, Bool.not_eq_true']
      refine ⟨?_, ih h2⟩
      rw [kvContains_kvInsert]
      simp [h0, h1]

theorem kvGet_append_new (m : KV) (k0 v0 k : String) :
    kvGet (m ++ [(k0, v0)]) k =
      match kvGet m k with
      | some v => some v
      | none => if k0 = k then some v0 else none := by
  induction m with
  | nil => simp [kvGet]
  | cons hd tl ih =>
    obtain ⟨k1, v1⟩ := hd
    by_cases h1 : k1 = k
    · simp [kvGet, h1]
    · simp [kvGet, h1, ih]

theorem kvWellFormed_append_new (m : KV) (k0 v0 : String)
    (hm : kvWellFormed m = true) (hk : kvContains m k0 = false) :
    kvWellFormed (m ++ [(k0, v0)]) = true := by
  induction m with
  | nil => simp [kvWellFormed, kvContains, kvGet]
  | cons hd tl ih =>
    obtain ⟨k1, v1⟩ := hd
    simp only [kvWellFormed, Bool.and_eq_true, Bool.not_eq_true'] at hm
    obtain ⟨h1, h2⟩ := hm
    by_cases h0 : k1 = k0
    · subst h0
      simp [kvContains, kvGet] at hk
    · have hk' : kvContains tl k0 = false := by
        simpa [kvContains, kvGet, h0] using hk
      simp only [List.cons_append, kvWellFormed, Bool.and_eq_true, Bool.not_eq_true']
      refine ⟨?_, ih h2 hk'⟩
      have hgap : kvGet (tl ++ [(k0, v0)]) k1 = none := by
        rw [kvGet_append_new]
        cases hg : kvGet tl k1 with
        | some v => simp [kvContains, hg] at h1
        | none => simp [Ne.symm h0]
      simp [kvContains, hgap]

theorem foldl_kvInsert_get (old : KV) :
    ∀ new : KV, kvWellFormed old = true → ∀ k,
      kvGet (old.foldl kvInsert new) k =
        match kvGet old k with
        | some v => some v
        | none => kvGet new k := by
  induction old with
  | nil => intro new _ k; simp [kvGet]
  | cons hd tl ih =>
    intro new hwf k
    obtain ⟨k0, v0⟩ := hd
    simp only [kvWellFormed, Bool.and_eq_true, Bool.not_eq_true'] at hwf
    obtain ⟨h1, h2⟩ := hwf
    simp only [List.foldl_cons]
    rw [ih (kvInsert new (k0, v0)) h2 k]
    by_cases hk : k0 = k
    · subst hk
      have hg : kvGet tl k0 = none := by
        cases hg : kvGet tl k0 with
        | none => rfl
        | some v => simp [kvContains, hg] at h1
      simp [kvGet, hg, kvGet_kvInsert]
    · simp [kvGet, hk, kvGet_kvInsert, Ne.symm hk]

theorem foldl_kvInsert_wf (old : KV) :
    ∀ new : KV, kvWellFormed new = true →
      kvWellFormed (old.foldl kvInsert new) = true := by
  induction old with
  | nil => intro new h; simpa using h
  | cons hd tl ih =>
    intro new h
    obtain ⟨k0, v0⟩ := hd
    simp only [List.foldl_cons]
    exact ih _ (kvWellFormed_kvInsert _ _ _ h)

theorem mem_keysOf_contains (m : KV) (k : String) (h : k ∈ keysOf m) :
    kvContains m k = true := by
  induction m with
  | nil => simp [keysOf] at h
  | cons hd tl ih =>
    obtain ⟨k0, v0⟩ := hd
    simp only [keysOf, List.map_cons, List.mem_cons] at h
    rcases h with h1 | h1
    · subst h1
      simp [kvContains, kvGet]
    · by_cases h0 : k0 = k
      · simp [kvContains, kvGet, h0]
      · have hc : kvContains tl k = true := ih h1
        simpa [kvContains, kvGet, h0] using hc

theorem filterBool_congr {l : List String} {p q : String → Bool}
    (h : ∀ a ∈ l, p a = q a) : l.filter p = l.filter q := by
  induction l with
  | nil => rfl
  | cons hd tl ih =>
    have hhd : p hd = q hd := h hd (List.mem_cons_self hd tl)
    have htl : ∀ a ∈ tl, p a = q a := fun a ha => h a (List.mem_cons_of_mem hd ha)
    simp only [List.filter_cons, hhd, ih htl]

theorem foldl_kvInsert_keys (old : KV) :
    ∀ new : KV, kvWellFormed old = true →
      keysOf (old.foldl kvInsert new) =
        keysOf new ++ (keysOf old).filter (fun k => !kvContains new k) := by
  induction old with
  | nil => intro new _; simp [keysOf]
  | cons hd tl ih =>
    intro new hwf
    obtain ⟨k0, v0⟩ := hd
    simp only [kvWellFormed, Bool.and_eq_true, Bool.not_eq_true'] at hwf
    obtain ⟨h1, h2⟩ := hwf
    simp only [List.foldl_cons]
    rw [ih (kvInsert new (k0, v0)) h2]
    have hcongr : ∀ a ∈ keysOf tl,
        (!kvContains (kvInsert new (k0, v0)) a) = (!kvContains new a) := by
      intro a ha
      have hne : a ≠ k0 := by
        intro hh
        subst hh
        rw [mem_keysOf_contains tl a ha] at h1
        cases h1
      rw [kvContains_kvInsert]
      simp [hne]
    have hkeys : keysOf ((k0, v0) :: tl) = k0 :: keysOf tl := rfl
    rw [hkeys]
    by_cases hc : kvContains new k0 = true
    · rw [keysOf_kvInsert_of_contains new k0 v0 hc]
      rw [List.filter_cons]
      simp only [hc, Bool.not_true]
      rw [filterBool_congr hcongr]
      simp
    · have hc' : kvContains new k0 = false := by simpa using hc
      rw [keysOf_kvInsert_of_not_contains new k0 v0 hc']
      rw [List.filter_cons]
      simp only [hc', Bool.not_false]
      rw [filterBool_congr hcongr]
      simp

/-! ## Lemmas about layers and the merge -/

theorem layerScan_wf (opts : KV) :
    ∀ acc : KV, kvWellFormed acc = true → kvWellFormed (layerScan opts acc) = true := by
  induction opts with
  | nil => intro acc h; simpa [layerScan] using h
  | cons hd tl ih =>
    intro acc h
    obtain ⟨k0, v0⟩ := hd
    simp only [layerScan]
    by_cases h1 : byteLen (lower k0) > 50 ∨
        byteLen (if is_known_key (lower k0) then lower v0 else v0) > 255
    · rw [if_pos h1]; exact ih acc h
    · rw [if_neg h1]
      by_cases h2 : kvContains acc (lower k0) = true ∨ lower k0 = "root"
      · rw [if_pos h2]; exact ih acc h
      · rw [if_neg h2]
        refine ih _ (kvWellFormed_append_new _ _ _ h ?_)
        have h3 := (not_or.mp h2).1
        simpa using h3

theorem layerPart_wf (opts : KV) : kvWellFormed (layerPart opts) = true :=
  layerScan_wf opts [] rfl

theorem layerScan_get_root (opts : KV) :
    ∀ acc : KV, kvGet (layerScan opts acc) "root" = kvGet acc "root" := by
  induction opts with
  | nil => intro acc; simp [layerScan]
  | cons hd tl ih =>
    intro acc
    obtain ⟨k0, v0⟩ := hd
    simp only [layerScan]
    by_cases h1 : byteLen (lower k0) > 50 ∨
        byteLen (if is_known_key (lower k0) then lower v0 else v0) > 255
    · rw [if_pos h1]; exact ih acc
    · rw [if_neg h1]
      by_cases h2 : kvContains acc (lower k0) = true ∨ lower k0 = "root"
      · rw [if_pos h2]; exact ih acc
      · rw [if_neg h2]
        rw [ih]
        rw [kvGet_append_new]
        have hne : lower k0 ≠ "root" := (not_or.mp h2).2
        cases hg : kvGet acc "root" with
        | some v => simp
        | none => simp [hne]

theorem layerPart_root_none (opts : KV) : kvGet (layerPart opts) "root" = none :=
  layerScan_get_root opts []

theorem firstVal_root_none (ls : List KV) : firstVal ls "root" = none := by
  induction ls with
  | nil => rfl
  | cons l rest ih => simp [firstVal, layerPart_root_none, ih]

theorem mergeStep_get (acc options : KV) (h : kvWellFormed acc = true) (k : String) :
    kvGet (mergeStep acc options) k =
      match kvGet acc k with
      | some v => some v
      | none => kvGet (layerPart options) k :=
  foldl_kvInsert_get acc (layerPart options) h k

theorem mergeStep_keys (acc options : KV) (h : kvWellFormed acc = true) :
    keysOf (mergeStep acc options) = stepKeys (keysOf acc) options :=
  foldl_kvInsert_keys acc (layerPart options) h

theorem mergeStep_wf (acc options : KV) :
    kvWellFormed (mergeStep acc options) = true :=
  foldl_kvInsert_wf acc (layerPart options) (layerPart_wf options)

/-! ## The cascade characterization -/

theorem cascade_ok_char (fs : FS) (target : List String) :
    ∀ (cands : List (List String)) (acc m : KV),
      kvWellFormed acc = true →
      cascade fs target cands acc = .ok m →
      ∃ ls, consultedLayers fs target cands = .ok ls ∧
        (∀ k, kvGet m k =
          match kvGet acc k with
          | some v => some v
          | none => firstVal ls k) ∧
        keysOf m = ls.foldl stepKeys (keysOf acc) := by
  intro cands
  induction cands with
  | nil =>
    intro acc m _ hc
    simp only [cascade] at hc
    injection hc with h
    subst h
    refine ⟨[], rfl, fun k => ?_, by simp⟩
    cases hg : kvGet acc k <;> simp [firstVal, hg]
  | cons c rest ih =>
    intro acc m hwf hc
    cases hp : parse_config fs target c with
    | panic => simp only [cascade, hp] at hc; cases hc
    | err => simp only [cascade, hp] at hc; cases hc
    | ok options =>
      simp only [cascade, hp] at hc
      by_cases hr : isRootLayer options = true
      · rw [if_pos hr] at hc
        injection hc with h
        subst h
        refine ⟨[options], ?_, fun k => ?_, ?_⟩
        · simp [consultedLayers, hp, hr]
        · rw [mergeStep_get acc options hwf k]
          cases hg : kvGet acc k with
          | some v => simp [firstVal, hg]
          | none =>
            cases hg2 : kvGet (layerPart options) k <;> simp [firstVal, hg, hg2]
        · rw [mergeStep_keys acc options hwf]
          simp
      · rw [if_neg hr] at hc
        obtain ⟨ls, hcons, hget, hkeys⟩ :=
          ih (mergeStep acc options) m (mergeStep_wf acc options) hc
        refine ⟨options :: ls, ?_, fun k => ?_, ?_⟩
        · simp [consultedLayers, hp, hr, hcons]
        · rw [hget k, mergeStep_get acc options hwf k]
          cases hg : kvGet acc k with
          | some v => simp [hg]
          | none =>
            cases hg2 : kvGet (layerPart options) k <;> simp [firstVal, hg, hg2]
        · rw [hkeys, mergeStep_keys acc options hwf]
          simp

theorem consulted_err_cascade (fs : FS) (target : List String) :
    ∀ (cands : List (List String)) (acc : KV),
      consultedLayers fs target cands = .err →
      cascade fs target cands acc = .err := by
  intro cands
  induction cands with
  | nil => intro acc h; cases h
  | cons c rest ih =>
    intro acc h
    cases hp : parse_config fs target c with
    | panic => simp only [consultedLayers, hp] at h; cases h
    | err => simp only [cascade, hp]
    | ok options =>
      simp only [consultedLayers, hp] at h
      simp only [cascade, hp]
      by_cases hr : isRootLayer options = true
      · rw [if_pos hr] at h; cases h
      · rw [if_neg hr] at h
        rw [if_neg hr]
        cases hcr : consultedLayers fs target rest with
        | panic => rw [hcr] at h; cases h
        | err => exact ih _ hcr
        | ok ls => rw [hcr] at h; cases h

/-! ## Lemmas about the path crawler -/

theorem crawlAux_filter (fs : FS) (cf : String) :
    ∀ rev : List String,
      crawlAux fs cf rev = (sibAux cf rev).filter (fun p => fsExists fs p) := by
  intro rev
  induction rev with
  | nil => rfl
  | cons c rest ih =>
    simp only [crawlAux, sibAux, List.filter_cons]
    by_cases he : fsExists fs (rest.reverse ++ [cf]) = true
    · simp [he, ih]
    · simp [he, ih]

theorem all_not_filter_nil {l : List (List String)} {f : List String → Bool}
    (h : l.all (fun p => !f p) = true) : l.filter f = [] := by
  induction l with
  | nil => rfl
  | cons hd tl ih =>
    simp only [List.all_cons, Bool.and_eq_true, Bool.not_eq_true'] at h
    simp [List.filter_cons, h.1, ih h.2]

theorem postprocess_eq_spec (m : KV) :
    postprocess m = specRuleC (specRuleB (specRuleA m)) := by
  have hstep : ∀ m1 : KV, (match kvGet m1 "indent_size" with
      | some isz =>
        if isz ≠ "tab" then
          match kvGet m1 "tab_width" with
          | none => kvInsert m1 ("tab_width", isz)
          | some _ => m1
        else
          match kvGet m1 "tab_width" with
          | some tw => kvInsert m1 ("indent_size", tw)
          | none => m1
      | none => m1) = specRuleC (specRuleB m1) := by
    intro m1
    cases hisz : kvGet m1 "indent_size" with
    | none => simp [specRuleB, specRuleC, hisz]
    | some isz =>
      by_cases ht : isz = "tab"
      · subst ht
        cases htw : kvGet m1 "tab_width" with
        | none => simp [specRuleB, specRuleC, hisz, htw]
        | some tw => simp [specRuleB, specRuleC, hisz, htw]
      · cases htw : kvGet m1 "tab_width" with
        | none => simp [specRuleB, specRuleC, hisz, htw, ht, kvGet_kvInsert]
        | some tw => simp [specRuleB, specRuleC, hisz, htw, ht]
  cases his : kvGet m "indent_style" with
  | none =>
    have ha : specRuleA m = m := by simp [specRuleA, his]
    rw [ha, ← hstep m]
    simp [postprocess, his]
  | some is =>
    by_cases htab : is = "tab"
    · subst htab
      cases hisz : kvGet m "indent_size" with
      | some isz =>
        have ha : specRuleA m = m := by simp [specRuleA, his, hisz]
        rw [ha, ← hstep m]
        simp [postprocess, his, hisz]
      | none =>
        have ha : specRuleA m = kvInsert m ("indent_size", "tab") := by
          simp [specRuleA, his, hisz]
        rw [ha, ← hstep (kvInsert m ("indent_size", "tab"))]
        simp [postprocess, his, hisz]
    · have ha : specRuleA m = m := by simp [specRuleA, his, htab]
      rw [ha, ← hstep m]
      simp [postprocess, his, htab]


/-! ## Claim theorems -/

/-- C1: closest-wins cascade with root termination. Whenever the resolver
succeeds, the resulting mapping assigns every key the value of the first
consulted file (nearest first) whose normalized layer sets it — so a nearer
value always beats a farther one and farther-only keys are kept — and the
consulted files (`consultedLayers`) stop with the first layer whose `root`
is `"true"` case-insensitively, that layer's own keys still contributing. -/
theorem C1_closest_wins_cascade (fs : FS) (target : List String) (cf : String) (m : KV)
    (h : get_config_conffile fs target cf = .ok m) :
    ∃ ls, consultedLayers fs target (crawl_paths fs target cf) = .ok ls ∧
      ∀ k, kvGet m k = firstVal ls k := by
  obtain ⟨ls, hcons, hget, _⟩ :=
    cascade_ok_char fs target (crawl_paths fs target cf) [] m rfl h
  exact ⟨ls, hcons, fun k => hget k⟩

/-- Witness for C1 at the spec's own cascade example (`exFs1`): nearer
`indent_style=space` wins, farther-only `end_of_line=lf` is kept, and the
file beyond the `root=true` layer is not consulted. -/
theorem C1_closest_wins_cascade_witness :
    ∃ ls, consultedLayers exFs1 ["a", "b", "f"]
        (crawl_paths exFs1 ["a", "b", "f"] ".ec") = .ok ls ∧
      ∀ k, kvGet [("indent_style", "space"), ("end_of_line", "lf"),
        ("indent_size", "tab")] k = firstVal ls k :=
  C1_closest_wins_cascade exFs1 ["a", "b", "f"] ".ec" _ (by decide)

/-- C2 counterexample: the nearer file of `exFs2` sets only `aaa`, the
farther file only `bbb`, yet the resolved mapping iterates `bbb` before
`aaa` — the claimed nearest-to-farthest first-assignment order is violated. -/
theorem C2_order_counterexample :
    get_config_conffile exFs2 ["d", "f"] ".ec" = .ok [("bbb", "2"), ("aaa", "1")] ∧
    keysOf [("bbb", "2"), ("aaa", "1")] ≠ ["aaa", "bbb"] := by decide

/-- C2 (amended): the key iteration order is the order of first assignment
while walking the consulted files farthest-to-nearest: each merge step puts
the farther layer's keys first (in layer order) and appends the
already-accumulated keys it does not set (`stepKeys`); values still obey
closest-wins. -/
theorem C2_order_farthest_first (fs : FS) (target : List String) (cf : String) (m : KV)
    (h : get_config_conffile fs target cf = .ok m) :
    ∃ ls, consultedLayers fs target (crawl_paths fs target cf) = .ok ls ∧
      keysOf m = ls.foldl stepKeys [] := by
  obtain ⟨ls, hcons, _, hkeys⟩ :=
    cascade_ok_char fs target (crawl_paths fs target cf) [] m rfl h
  exact ⟨ls, hcons, hkeys⟩

/-- Witness for the amended C2 at `exFs2`. -/
theorem C2_order_farthest_first_witness :
    ∃ ls, consultedLayers exFs2 ["d", "f"]
        (crawl_paths exFs2 ["d", "f"] ".ec") = .ok ls ∧
      keysOf [("bbb", "2"), ("aaa", "1")] = ls.foldl stepKeys [] :=
  C2_order_farthest_first exFs2 ["d", "f"] ".ec" _ (by decide)

/-- C3 (code bug): the single-range examples behave as claimed, but with two
numeric ranges only the first captured integer is checked against the first
range — `glob_match` zips the (at most one) anchored match against the range
list instead of zipping capture groups — so `match("{1..3}x{5..7}", "2x9")`
returns true although 9 is outside [5,7], contradicting the claim and the
code's own comment ("make sure every capture group in the output matches the
corresponding range"). -/
theorem C3_numeric_range_first_only :
    glob_match "\x7b1..3\x7d" "2" = some true ∧
    glob_match "\x7b1..3\x7d" "4" = some false ∧
    glob_match "\x7b1..3\x7d" "-1" = some false ∧
    glob_match "\x7b1..3\x7dx\x7b5..7\x7d" "2x9" = some true := by decide

/-- C4 counterexample: `?` is translated to the regex `.`, which matches a
slash, so `match("a?b", "a/b")` returns true, not false as claimed. -/
theorem C4_question_matches_slash : glob_match "a?b" "a/b" = some true := by decide

/-- C4 (amended): for every pattern, the translation step of `glob_match`
(lib.rs line 72, `pattern.replace("?", ".")`) turns each `?` into the regex
metacharacter `.` — a per-character map over the whole pattern — and for
every input, position and fuel the engine's `.` matches exactly one
character that is not a newline, a slash included (it advances the position
by exactly one and succeeds iff a non-newline character is present);
concretely `a?b` matches `a/b` and `axb` (one character) but not `ab` or
`axyb` (zero or two). -/
theorem C4_question_single_any_char :
    (∀ pattern : String, strReplace pattern "?" "." =
      String.mk (pattern.data.map (fun c => if c = '?' then '.' else c))) ∧
    (∀ (s : List Char) (fuel pos : Nat) (caps : Caps) (pc : Nat × Caps),
      pc ∈ mrun s (fuel + 1) RE.dot pos caps ↔
        (pc = (pos + 1, caps) ∧ ∃ c, s[pos]? = some c ∧ c ≠ '\n')) ∧
    glob_match "a?b" "a/b" = some true ∧
    glob_match "a?b" "axb" = some true ∧
    glob_match "a?b" "ab" = some false ∧
    glob_match "a?b" "axyb" = some false := by
  refine ⟨?_, ?_, by decide, by decide, by decide, by decide⟩
  · intro pattern
    have h : ∀ (cs : List Char) (fuel : Nat), cs.length ≤ fuel →
        replaceGo ['?'] ['.'] fuel cs =
          cs.map (fun c => if c = '?' then '.' else c) := by
      intro cs
      induction cs with
      | nil => intro fuel _; cases fuel <;> rfl
      | cons c rest ih =>
        intro fuel hf
        cases fuel with
        | zero => simp at hf
        | succ f =>
          have hrest : rest.length ≤ f := Nat.le_of_succ_le_succ (by simpa using hf)
          simp only [replaceGo]
          by_cases hc : c = '?'
          · subst hc
            rw [if_pos (by simp [List.isPrefixOf])]
            simp [ih f hrest]
          · have hnp : ¬ (List.isPrefixOf ['?'] (c :: rest) = true) := by
              simp only [List.isPrefixOf, Bool.and_eq_true, beq_iff_eq]
              exact fun hh => hc hh.1.symm
            rw [if_neg hnp]
            simp [hc, ih f hrest]
    show String.mk
        (replaceGo "?".data ".".data (pattern.data.length + 1) pattern.data) = _
    have h1 : "?".data = ['?'] := rfl
    have h2 : ".".data = ['.'] := rfl
    rw [h1, h2, h pattern.data (pattern.data.length + 1) (Nat.le_succ _)]
  · intro s fuel pos caps pc
    simp only [mrun]
    cases hg : s[pos]? with
    | none => simp
    | some c =>
      by_cases hc : c = '\n'
      · subst hc
        simp
      · simp [hc]

/-- C5 counterexample: on the pathological pattern `(` the final
`Regex::new(..).unwrap()` fails, modelled as `none`/`.panic`: matcher
construction aborts instead of degrading to "never matches", and a file
containing such a section header makes the whole resolution panic instead of
succeeding for the rest of the file. -/
theorem C5_malformed_panic_concrete :
    glob_match "(" "x" = none ∧
    get_config_conffile exFs5 ["d", "f"] ".ec" = .panic := by decide

/-- C5 (amended): a pattern whose translated regex fails to compile makes
`glob_match` panic (`none`) for every candidate — compilation happens before
the candidate is consulted — and a resolution that reaches such a section
header aborts rather than skipping it. -/
theorem C5_malformed_pattern_aborts :
    (∀ c : String, glob_match "(" c = none) ∧
    get_config_conffile exFs5 ["d", "f"] ".ec" = .panic := by
  constructor
  · intro c
    have h : globCompile "(" = none := by decide
    unfold glob_match
    rw [h]
  · decide

/-- C6 counterexample: with only `/a/.ec` existing, the crawler returns the
single existing sibling, not the full unfiltered ancestor list the claim
describes — existence filtering happens inside `crawl_paths` itself. -/
theorem C6_crawl_filters_existence :
    crawl_paths exFs6 ["a", "b", "f"] ".ec" = [["a", ".ec"]] ∧
    allSiblings ["a", "b", "f"] ".ec" = [["a", "b", ".ec"], ["a", ".ec"], [".ec"]] ∧
    crawl_paths exFs6 ["a", "b", "f"] ".ec" ≠ allSiblings ["a", "b", "f"] ".ec" := by
  decide

/-- C6 (amended): the crawler produces, for the target's own directory and
each ancestor up to the root, the sibling with the final component replaced
by the configuration filename, nearest first and root last
(`allSiblings`), but keeps only those that exist on the filesystem; the
caller then parses every returned path without re-checking existence. -/
theorem C6_crawl_existing_siblings (fs : FS) (path : List String) (cf : String) :
    crawl_paths fs path cf = (allSiblings path cf).filter (fun p => fsExists fs p) :=
  crawlAux_filter fs cf path.reverse

/-- C7 counterexample: in `exFs7` the root-marked nearer file terminates the
cascade before the existing-but-malformed file at `/` is consulted, so the
resolution succeeds although an existing candidate on the ancestor chain
fails to parse — refuting the claim's "any candidate file that exists". -/
theorem C7_root_shields_malformed :
    fsRead exFs7 [".ec"] = some none ∧
    ([".ec"] ∈ allSiblings ["a", "f"] ".ec" ∧ fsExists exFs7 [".ec"] = true) ∧
    get_config_conffile exFs7 ["a", "f"] ".ec" = .ok [] := by decide

/-- C7 (amended): when no candidate exists at all the resolver returns an
empty successful mapping, and when a *consulted* candidate (one reached
before root termination) fails to parse the whole resolution is an error
with no partial mapping. -/
theorem C7_empty_or_parse_error (fs : FS) (target : List String) (cf : String) :
    ((allSiblings target cf).all (fun p => !fsExists fs p) = true →
      get_config_conffile fs target cf = .ok []) ∧
    (consultedLayers fs target (crawl_paths fs target cf) = .err →
      get_config_conffile fs target cf = .err) := by
  constructor
  · intro h
    have hc : crawl_paths fs target cf = [] := by
      unfold crawl_paths
      rw [crawlAux_filter]
      exact all_not_filter_nil (by simpa [allSiblings] using h)
    unfold get_config_conffile
    rw [hc]
    rfl
  · intro h
    exact consulted_err_cascade fs target _ [] h

/-- Witness for C7: the empty filesystem resolves to an empty mapping, and a
malformed consulted file (`exFs7b`) aborts the resolution with an error. -/
theorem C7_empty_or_parse_error_witness :
    get_config_conffile ([] : FS) ["a", "f"] ".ec" = .ok [] ∧
    get_config_conffile exFs7b ["a", "f"] ".ec" = .err :=
  ⟨(C7_empty_or_parse_error [] ["a", "f"] ".ec").1 (by decide),
   (C7_empty_or_parse_error exFs7b ["a", "f"] ".ec").2 (by decide)⟩

/-- C8: the derived-key post-processing equals the spec's three rules
applied in order, each conditioned on the state left by the previous rules
(`specRuleA/B/C` are written from the spec's words); a layer with
`indent_style=tab` and no `indent_size` gains `indent_size=tab`; and the
layers of `exFs1` show the inference applied once per layer, after glob
matching and before the merge. -/
theorem C8_postprocess_rules :
    (∀ m : KV, postprocess m = specRuleC (specRuleB (specRuleA m))) ∧
    postprocess [("indent_style", "tab")] =
      [("indent_style", "tab"), ("indent_size", "tab")] ∧
    consultedLayers exFs1 ["a", "b", "f"]
        (crawl_paths exFs1 ["a", "b", "f"] ".ec") =
      .ok [[("indent_style", "space")],
        [("root", "true"), ("indent_style", "tab"), ("end_of_line", "lf"),
          ("indent_size", "tab")]] :=
  ⟨postprocess_eq_spec, by decide, by decide⟩

/-- C9: a brace alternation whose cases list has a leading, trailing or
doubled comma (detected as `",,"` in the comma-padded cases) compiles to a
group suffixed with `?` (optional) instead of keeping an empty alternative,
and concretely `a{b,}` matches `a` and `ab` but not `ac`. -/
theorem C9_empty_alternative_optional :
    (∀ cs : String, has_imbalanced_braces cs = false →
      hasSub [',', ','] ("," ++ cs ++ ",").data = true →
      ∃ body : String, translate_alternation cs = "(?:" ++ body ++ ")?") ∧
    glob_match "a\x7bb,\x7d" "a" = some true ∧
    glob_match "a\x7bb,\x7d" "ab" = some true ∧
    glob_match "a\x7bb,\x7d" "ac" = some false := by
  refine ⟨?_, by decide, by decide, by decide⟩
  intro cs h1 h2
  refine ⟨String.mk (reReplaceFirst escapedCommaRE
      (fun caps => capGetD caps 1 ++ [',']) (strReplace cs "," "|").data), ?_⟩
  simp only [translate_alternation, h1, h2]
  rw [if_neg (by simp : ¬ (false = true))]
  rw [if_pos trivial]
  rw [String.append_assoc]
  rfl

/-- Witness for C9 at the cases list `b,` of the pattern `a{b,}`. -/
theorem C9_empty_alternative_optional_witness :
    has_imbalanced_braces "b," = false ∧
    (∃ body : String, translate_alternation "b," = "(?:" ++ body ++ ")?") :=
  ⟨by decide, C9_empty_alternative_optional.1 "b," (by decide) (by decide)⟩

/-- C10: a `root` key contributed by a matching glob section takes part in
cascade termination — in `exFsA` a section `root=true` stops the cascade
(the farther file's `k2` is absent), in `exFsB` a section `root=false`
overrides the preamble's `root=true` so the cascade continues to the farther
file, in `exFsC` a section `root=TRUE` terminates case-insensitively — and
in general the `root` key never appears in a returned mapping. -/
theorem C10_section_root_termination :
    get_config_conffile exFsA ["a", "f"] ".ec" = .ok [("k1", "v1")] ∧
    get_config_conffile exFsB ["a", "f"] ".ec" = .ok [("k2", "v2")] ∧
    get_config_conffile exFsC ["a", "f"] ".ec" = .ok [] ∧
    (∀ (fs : FS) (target : List String) (cf : String) (m : KV),
      get_config_conffile fs target cf = .ok m → kvGet m "root" = none) := by
  refine ⟨by decide, by decide, by decide, ?_⟩
  intro fs target cf m h
  obtain ⟨ls, _, hget, _⟩ :=
    cascade_ok_char fs target (crawl_paths fs target cf) [] m rfl h
  have hr := hget "root"
  rw [hr]
  exact firstVal_root_none ls

/-- Witness for C10's general part at `exFsA`. -/
theorem C10_section_root_termination_witness :
    kvGet [("k1", "v1")] "root" = none :=
  C10_section_root_termination.2.2.2 exFsA ["a", "f"] ".ec" [("k1", "v1")] (by decide)

end Editorconfig
